import Mathlib

/-
  Verification of the TLCCS spectrometer driver (src/lab_instruments/tlccs.py).

  The Python driver is shallowly embedded over exact rational arithmetic:
  - device byte stores (EEPROM) are functions from addresses to byte values,
  - float computations are modelled over the rationals,
  - machine integers are naturals with explicit masks written as division,
    remainder or bitwise operations,
  - functions that raise exceptions return Except values.
-/

namespace Tlccs

/- Constants from tlccs.py. -/

def TLCCS_SERIAL_NO_LENGTH : ℕ := 24
def TLCCS_NUM_POLY_POINTS : ℕ := 4
def TLCCS_NUM_PIXELS : ℕ := 3648
def TLCCS_NUM_RAW_PIXELS : ℕ := 3694
def ENDPOINT_0_TRANSFERSIZE : ℕ := 64
def UINT16_SZ : ℕ := 2
def CHAR_SZ : ℕ := 1

def TLCCS_MIN_INT_TIME : ℚ := 1 / 100000
def TLCCS_MAX_INT_TIME : ℚ := 60
def SH_PERCENT : ℚ := 33 / 2

def TLCCS_AMP_CORR_FACT_MIN : ℚ := 1 / 1000
def TLCCS_AMP_CORR_FACT_MAX : ℚ := 1000

def NO_DARK_PIXELS : ℕ := 12
def DARK_PIXELS_OFFSET : ℕ := 16
def SCAN_PIXELS_OFFSET : ℕ := 32
def MAX_ADC_VALUE : ℕ := 0xFFFF
def DARK_LEVEL_THRESHOLD : ℚ := 99 / 100
def DARK_LEVEL_THRESHOLD_ADC : ℚ := DARK_LEVEL_THRESHOLD * MAX_ADC_VALUE

/- EEPROM address layout (only the part up to the software-version boundary is
   needed by the claims). -/

def EE_LENGTH_SERIAL_NO : ℕ := CHAR_SZ * TLCCS_SERIAL_NO_LENGTH
def EE_SIZE_SERIAL_NO : ℕ := EE_LENGTH_SERIAL_NO
def EE_SERIAL_NO : ℕ := 8
def EE_SW_VERSION : ℕ := EE_SERIAL_NO + EE_SIZE_SERIAL_NO

/-
  CRC-16: crc16_update xors the data byte into the running value and performs
  eight LSB-first rounds with polynomial 0xA001; crc16_block folds it over the
  first `length` bytes of the buffer starting from 0xFFFF.
-/

def crc16_round (crc : ℕ) : ℕ :=
  if crc &&& 1 = 1 then (crc >>> 1) ^^^ 0xA001 else crc >>> 1

def crc16_update (crc d : ℕ) : ℕ :=
  (crc16_round^[8] (crc ^^^ d)) &&& 0xFFFF

def crc16_block (data : List ℕ) (length : ℕ) : ℕ :=
  (data.take length).foldl crc16_update 0xFFFF

/-
  read_EEPROM_wo_CRC: chunked control-transfer read.  The device is modelled as
  a byte store `ee : ℕ → ℕ`; each control transfer returns the requested chunk
  of consecutive bytes.  The `idx` (wIndex) argument of the Python function is
  a pass-through USB parameter with no effect on the result and is omitted.
-/

def read_EEPROM_wo_CRC (ee : ℕ → ℕ) (address length : ℕ) : List ℕ :=
  if length = 0 then []
  else
    let chunk_length := if ENDPOINT_0_TRANSFERSIZE ≤ length then ENDPOINT_0_TRANSFERSIZE else length
    ((List.range chunk_length).map fun i => ee (address + i))
      ++ read_EEPROM_wo_CRC ee (address + chunk_length) (length - chunk_length)
termination_by length
decreasing_by
  simp only [ENDPOINT_0_TRANSFERSIZE]
  split <;> omega

/-- Little-endian 16-bit unpack of the first two bytes, as struct.unpack with a
less-than H format does. -/
def unpackLEu16 (bs : List ℕ) : ℕ := bs.headI + 256 * bs.tail.headI

/-- read_EEPROM from tlccs.py: reads `length` bytes; for addresses at or above
EE_SW_VERSION it additionally reads the two trailing checksum bytes and raises
EEPROMChecksumError (modelled as Except.error) on a mismatch unless the stored
value is the all-ones sentinel 0xFFFF. -/
def read_EEPROM (ee : ℕ → ℕ) (address length : ℕ) : Except Unit (List ℕ) :=
  let data := read_EEPROM_wo_CRC ee address length
  if EE_SW_VERSION ≤ address then
    let checksum := crc16_block data length
    let checksum_bytes := read_EEPROM_wo_CRC ee (address + length) UINT16_SZ
    let eeprom_checksum := unpackLEu16 checksum_bytes
    if checksum ≠ eeprom_checksum then
      if eeprom_checksum = 0xFFFF then Except.ok data else Except.error ()
    else Except.ok data
  else Except.ok data

theorem read_EEPROM_wo_CRC_eq (ee : ℕ → ℕ) (address length : ℕ) :
    read_EEPROM_wo_CRC ee address length = (List.range length).map fun i => ee (address + i) := by
  induction length using Nat.strong_induction_on generalizing address with
  | _ n ih =>
    rw [read_EEPROM_wo_CRC]
    by_cases h0 : n = 0
    · simp [h0]
    · rw [if_neg h0]
      by_cases h64 : ENDPOINT_0_TRANSFERSIZE ≤ n
      · simp only [h64, if_true]
        rw [ih (n - ENDPOINT_0_TRANSFERSIZE) (by simp only [ENDPOINT_0_TRANSFERSIZE] at *; omega)]
        have hsplit : n = ENDPOINT_0_TRANSFERSIZE + (n - ENDPOINT_0_TRANSFERSIZE) := by omega
        conv_rhs => rw [hsplit]
        rw [List.range_add, List.map_append, List.map_map]
        congr 1
        apply List.map_congr_left
        intro a _
        simp [Function.comp, Nat.add_assoc]
      · simp only [h64, if_false, Nat.sub_self]
        rw [show read_EEPROM_wo_CRC ee (address + n) 0 = [] by rw [read_EEPROM_wo_CRC]; simp]
        simp

theorem read_EEPROM_checksum_bytes (ee : ℕ → ℕ) (a : ℕ) :
    read_EEPROM_wo_CRC ee a UINT16_SZ = [ee (a + 0), ee (a + 1)] := by
  rw [read_EEPROM_wo_CRC_eq]
  rfl

/-- Claim C3: for a checked EEPROM region (address at or above EE_SW_VERSION),
if the stored little-endian trailing 16-bit value equals the CRC-16 of the
payload the read returns the payload without error; if the stored value is
0xFFFF no error is raised regardless of the payload; any other mismatch raises
the checksum error. -/
theorem C3_checksum_trichotomy (ee : ℕ → ℕ) (address length : ℕ)
    (haddr : EE_SW_VERSION ≤ address) :
    (ee (address + length) + 256 * ee (address + length + 1) =
        crc16_block ((List.range length).map fun i => ee (address + i)) length →
      read_EEPROM ee address length = Except.ok ((List.range length).map fun i => ee (address + i))) ∧
    (ee (address + length) + 256 * ee (address + length + 1) = 0xFFFF →
      read_EEPROM ee address length = Except.ok ((List.range length).map fun i => ee (address + i))) ∧
    (ee (address + length) + 256 * ee (address + length + 1) ≠
        crc16_block ((List.range length).map fun i => ee (address + i)) length →
      ee (address + length) + 256 * ee (address + length + 1) ≠ 0xFFFF →
      read_EEPROM ee address length = Except.error ()) := by
  have hbytes := read_EEPROM_checksum_bytes ee (address + length)
  have hstored : unpackLEu16 (read_EEPROM_wo_CRC ee (address + length) UINT16_SZ) =
      ee (address + length) + 256 * ee (address + length + 1) := by
    rw [hbytes]; simp [unpackLEu16]
  simp only [read_EEPROM]
  rw [if_pos haddr, hstored, read_EEPROM_wo_CRC_eq ee address length]
  refine ⟨fun h => ?_, fun h => ?_, fun h1 h2 => ?_⟩
  · rw [if_neg (by simp [h])]
  · by_cases hc : crc16_block ((List.range length).map fun i => ee (address + i)) length =
        ee (address + length) + 256 * ee (address + length + 1)
    · rw [if_neg (by simp [hc])]
    · rw [if_pos hc, if_pos h]
  · rw [if_pos (fun hc => h1 hc.symm), if_neg h2]

/-- Claim C10: for a read whose start address is strictly below EE_SW_VERSION,
read_EEPROM performs no checksum validation and returns exactly the bytes read,
never raising a checksum error. -/
theorem C10_low_address_unchecked (ee : ℕ → ℕ) (address length : ℕ)
    (h : address < EE_SW_VERSION) :
    read_EEPROM ee address length = Except.ok (read_EEPROM_wo_CRC ee address length) := by
  unfold read_EEPROM
  rw [if_neg (by omega)]

/-- Witness for C10 at a concrete store and address. -/
theorem C10_low_address_unchecked_witness :
    (0 : ℕ) < EE_SW_VERSION ∧
      read_EEPROM (fun _ => 7) 0 5 = Except.ok (read_EEPROM_wo_CRC (fun _ => 7) 0 5) :=
  ⟨by decide, C10_low_address_unchecked (fun _ => 7) 0 5 (by decide)⟩

def eeCrcOk : ℕ → ℕ := fun a => if a = 33 then 191 else if a = 34 then 64 else 0

def eeBlank : ℕ → ℕ := fun _ => 255

def eeZero : ℕ → ℕ := fun _ => 0

/-- Witness for C3 covering the three cases at address 32, length 1: a stored
matching CRC, the all-ones sentinel, and a plain mismatch. -/
theorem C3_checksum_trichotomy_witness :
    read_EEPROM eeCrcOk 32 1 = Except.ok ((List.range 1).map fun i => eeCrcOk (32 + i)) ∧
    read_EEPROM eeBlank 32 1 = Except.ok ((List.range 1).map fun i => eeBlank (32 + i)) ∧
    read_EEPROM eeZero 32 1 = Except.error () :=
  ⟨(C3_checksum_trichotomy eeCrcOk 32 1 (by decide)).1 (by decide),
   (C3_checksum_trichotomy eeBlank 32 1 (by decide)).2.1 (by decide),
   (C3_checksum_trichotomy eeZero 32 1 (by decide)).2.2 (by decide) (by decide)⟩

/-
  Wavelength calibration (poly_to_wavelength_array, lines 701-730).  The four
  polynomial coefficients read from EEPROM are modelled as poly : Fin 4 → ℚ.
-/

def wl_of_poly (poly : Fin 4 → ℚ) (i : ℕ) : ℚ :=
  poly 0 + i * (poly 1 + i * (poly 2 + i * poly 3))

structure WlCalResult where
  wl : ℕ → ℚ
  min : ℚ
  max : ℚ

/-- Validation walk over pixels 1 to TLCCS_NUM_PIXELS-1 (lines 715-723).  In
BOTH direction branches the source raises InvalidUserData when wl[i] <= d,
where d is the previous pixel value, so the walk succeeds exactly when the
expanded array is strictly increasing, regardless of the direction flag. -/
def wl_walk_ok (w : ℕ → ℚ) : Bool :=
  (List.range (TLCCS_NUM_PIXELS - 1)).all fun i => decide (w i < w (i + 1))

/-- poly_to_wavelength_array: expands the polynomial per pixel in Horner form,
classifies the direction from wl[0] versus wl[1] (equality raises
InvalidUserData), runs the validation walk, and assigns min and max according
to the direction. -/
def poly_to_wavelength_array (poly : Fin 4 → ℚ) : Except Unit WlCalResult :=
  let w := wl_of_poly poly
  if w 0 < w 1 then
    if wl_walk_ok w then Except.ok ⟨w, poly 0, w (TLCCS_NUM_PIXELS - 1)⟩
    else Except.error ()
  else if w 1 < w 0 then
    if wl_walk_ok w then Except.ok ⟨w, w (TLCCS_NUM_PIXELS - 1), poly 0⟩
    else Except.error ()
  else Except.error ()

def polyDec : Fin 4 → ℚ := fun i => if i = 0 then 10 else if i = 1 then -1 else 0

/-- Claim C1 (code-bug evaluation): the polynomial 10 - i expands to a strictly
decreasing wavelength array, yet poly_to_wavelength_array rejects it, because
both direction branches of the validation walk test wl[i] <= d; the decreasing
min/max assignment of the source is unreachable. -/
theorem C1_decreasing_poly_raises :
    poly_to_wavelength_array polyDec = Except.error () := by
  have hp0 : polyDec 0 = 10 := rfl
  have hp1 : polyDec 1 = -1 := rfl
  have hp2 : polyDec 2 = 0 := rfl
  have hp3 : polyDec 3 = 0 := rfl
  have h0 : wl_of_poly polyDec 0 = 10 := by norm_num [wl_of_poly, hp0, hp1, hp2, hp3]
  have h1 : wl_of_poly polyDec 1 = 9 := by norm_num [wl_of_poly, hp0, hp1, hp2, hp3]
  have hlt : ¬ ((10 : ℚ) < 9) := by norm_num
  have hwalk : wl_walk_ok (wl_of_poly polyDec) = false := by
    rw [wl_walk_ok, show TLCCS_NUM_PIXELS - 1 = 3646 + 1 from rfl, List.range_succ_eq_map,
      List.all_cons]
    simp only [h0, h1, decide_eq_false hlt, Bool.false_and]
  simp only [poly_to_wavelength_array]
  rw [if_neg (by rw [h0, h1]; exact hlt), if_pos (by rw [h0, h1]; norm_num),
    if_neg (by simp [hwalk])]

/-
  Amplitude correction clamp (get_amplitude_correction_array, lines 614-635).
  The raw float32 entries unpacked from EEPROM are modelled as a rational-valued
  map; the function body first raises an entry to TLCCS_AMP_CORR_FACT_MIN when
  below it, then lowers the (possibly updated) entry to TLCCS_AMP_CORR_FACT_MAX
  when above it, mirroring the two sequential if statements of the source.
-/

def get_amplitude_correction_array (amplitude_cor_data : ℕ → ℚ) (i : ℕ) : ℚ :=
  let a0 := amplitude_cor_data i
  let a1 := if a0 < TLCCS_AMP_CORR_FACT_MIN then TLCCS_AMP_CORR_FACT_MIN else a0
  if TLCCS_AMP_CORR_FACT_MAX < a1 then TLCCS_AMP_CORR_FACT_MAX else a1

/-- Claim C9: after loading an amplitude-correction array every stored factor
lies in the closed band from 0.001 to 1000.0; entries read below the band are
set to its lower end and entries above it to its upper end. -/
theorem C9_amplitude_clamp (vals : ℕ → ℚ) (i : ℕ) :
    TLCCS_AMP_CORR_FACT_MIN ≤ get_amplitude_correction_array vals i ∧
    get_amplitude_correction_array vals i ≤ TLCCS_AMP_CORR_FACT_MAX ∧
    (vals i < TLCCS_AMP_CORR_FACT_MIN →
      get_amplitude_correction_array vals i = TLCCS_AMP_CORR_FACT_MIN) ∧
    (TLCCS_AMP_CORR_FACT_MAX < vals i →
      get_amplitude_correction_array vals i = TLCCS_AMP_CORR_FACT_MAX) := by
  simp only [get_amplitude_correction_array, TLCCS_AMP_CORR_FACT_MIN, TLCCS_AMP_CORR_FACT_MAX]
  split_ifs with h1 h2 <;>
    refine ⟨?_, ?_, fun hlt => ?_, fun hgt => ?_⟩ <;> first | rfl | linarith

/-- Witness for C9: an entry below the band is raised to the lower end and an
entry above the band is lowered to the upper end. -/
theorem C9_amplitude_clamp_witness :
    get_amplitude_correction_array (fun _ => 0) 0 = TLCCS_AMP_CORR_FACT_MIN ∧
    get_amplitude_correction_array (fun _ => 2000) 0 = TLCCS_AMP_CORR_FACT_MAX :=
  ⟨(C9_amplitude_clamp (fun _ => 0) 0).2.2.1
      (by norm_num [TLCCS_AMP_CORR_FACT_MIN]),
   (C9_amplitude_clamp (fun _ => 2000) 0).2.2.2
      (by norm_num [TLCCS_AMP_CORR_FACT_MAX])⟩

/-
  Firmware upload (upload_firmware, lines 821-835).  One control transfer is
  issued per parsed firmware record, in list order; a USB transfer error for
  block i (0-based) prints the 1-based index i+1 and breaks out of the loop
  without re-raising.  The device side is modelled by transfer_ok, giving the
  outcome of the control transfer for each block position; the model returns
  the 0-based positions of the blocks transferred successfully, in order, and
  the logged 1-based failing index, if any.
-/

structure FirmwareRecord where
  bRequest : ℕ
  wValue : ℕ
  wIndex : ℕ
  data : List ℕ
  deriving DecidableEq

def upload_firmware_loop (transfer_ok : ℕ → Bool) :
    ℕ → List FirmwareRecord → List ℕ × Option ℕ
  | _, [] => ([], none)
  | i, _ :: rs =>
    if transfer_ok i then
      let rest := upload_firmware_loop transfer_ok (i + 1) rs
      (i :: rest.1, rest.2)
    else ([], some (i + 1))

def upload_firmware (transfer_ok : ℕ → Bool) (records : List FirmwareRecord) :
    List ℕ × Option ℕ :=
  upload_firmware_loop transfer_ok 0 records

theorem upload_firmware_loop_all_ok (ok : ℕ → Bool) :
    ∀ (rs : List FirmwareRecord) (i : ℕ), (∀ j, j < rs.length → ok (i + j) = true) →
      upload_firmware_loop ok i rs = (List.range' i rs.length, none) := by
  intro rs
  induction rs with
  | nil => intro i _; rfl
  | cons r rs ih =>
    intro i h
    have h0 : ok i = true := by simpa using h 0 (by simp)
    simp only [upload_firmware_loop, h0, if_true]
    rw [ih (i + 1) (fun j hj => by
      have := h (j + 1) (by simpa using hj)
      rwa [show i + (j + 1) = i + 1 + j by omega] at this)]
    simp [List.range']

theorem upload_firmware_loop_fail (ok : ℕ → Bool) :
    ∀ (rs : List FirmwareRecord) (i k : ℕ), k < rs.length →
      (∀ j, j < k → ok (i + j) = true) → ok (i + k) = false →
      upload_firmware_loop ok i rs = (List.range' i k, some (i + k + 1)) := by
  intro rs
  induction rs with
  | nil => intro i k hk _ _; simp at hk
  | cons r rs ih =>
    intro i k hk hpre hfail
    match k with
    | 0 =>
      have h0 : ok i = false := by simpa using hfail
      simp [upload_firmware_loop, h0, List.range']
    | k + 1 =>
      have h0 : ok i = true := by simpa using hpre 0 (by omega)
      simp only [upload_firmware_loop, h0, if_true]
      rw [ih (i + 1) k (by simpa using hk)
        (fun j hj => by
          have := hpre (j + 1) (by omega)
          rwa [show i + (j + 1) = i + 1 + j by omega] at this)
        (by rw [show i + 1 + k = i + (k + 1) by omega]; exact hfail)]
      rw [show i + 1 + k + 1 = i + (k + 1) + 1 by omega, List.range'_succ]

/-- Claim C8: firmware upload issues one control transfer per block in file
order; when every transfer succeeds all blocks are uploaded in order with no
failure logged; when the transfer for 0-based block k fails, exactly the
blocks before k have been uploaded, no later block is attempted, the 1-based
index k+1 is logged, and the function still returns (no exception). -/
theorem C8_upload_stops_at_failure (ok : ℕ → Bool) (records : List FirmwareRecord) :
    ((∀ j, j < records.length → ok j = true) →
      upload_firmware ok records = (List.range records.length, none)) ∧
    (∀ k, k < records.length → (∀ j, j < k → ok j = true) → ok k = false →
      upload_firmware ok records = (List.range k, some (k + 1))) := by
  constructor
  · intro h
    rw [upload_firmware, upload_firmware_loop_all_ok ok records 0 (by simpa using h),
      List.range_eq_range']
  · intro k hk hpre hfail
    rw [upload_firmware,
      upload_firmware_loop_fail ok records 0 k hk (by simpa using hpre) (by simpa using hfail),
      List.range_eq_range']
    simp

/-- Witness for C8: two firmware blocks where the transfer of the second block
fails: only block 0 is uploaded and index 2 is logged. -/
theorem C8_upload_stops_at_failure_witness :
    upload_firmware (fun j => decide (j = 0)) [⟨0, 0, 0, []⟩, ⟨0, 0, 0, []⟩] =
      (List.range 1, some 2) :=
  (C8_upload_stops_at_failure (fun j => decide (j = 0)) [⟨0, 0, 0, []⟩, ⟨0, 0, 0, []⟩]).2
    1 (by decide) (by decide) (by decide)

/-
  Scan processing (get_scan_data, lines 391-414).  The raw buffer unpacked from
  the bulk endpoint is modelled as raw : ℕ → ℕ, giving the 16-bit ADC value of
  each raw pixel position.
-/

def dark_sum (raw : ℕ → ℕ) : ℕ :=
  (List.range NO_DARK_PIXELS).foldl (fun s i => s + raw (DARK_PIXELS_OFFSET + i)) 0

/-- Dark current average dark_com of get_scan_data. -/
def dark_com (raw : ℕ → ℕ) : ℚ := (dark_sum raw : ℚ) / NO_DARK_PIXELS

/-- get_scan_data: raises Overexposure when the dark average is above the
threshold, otherwise normalizes every scan pixel. -/
def get_scan_data (raw : ℕ → ℕ) : Except Unit (ℕ → ℚ) :=
  if DARK_LEVEL_THRESHOLD_ADC < dark_com raw then Except.error ()
  else
    let norm_com : ℚ := 1 / ((MAX_ADC_VALUE : ℚ) - dark_com raw)
    Except.ok fun i => ((raw (SCAN_PIXELS_OFFSET + i) : ℚ) - dark_com raw) * norm_com

theorem dark_com_ne_threshold (raw : ℕ → ℕ) :
    dark_com raw ≠ DARK_LEVEL_THRESHOLD_ADC := by
  unfold dark_com DARK_LEVEL_THRESHOLD_ADC DARK_LEVEL_THRESHOLD MAX_ADC_VALUE NO_DARK_PIXELS
  intro h
  have h2 : (dark_sum raw : ℚ) * 25 = 19463895 := by
    field_simp at h
    linarith
  have h3 : dark_sum raw * 25 = 19463895 := by exact_mod_cast h2
  omega

/-- Claim C4: a dark-pixel average at or above 0.99 of full ADC scale raises
the overexposure error with no partial result; a dark-pixel average below the
threshold does not raise it.  At-or-above coincides with strictly-above here
because the average of twelve integer ADC values can never equal the threshold
exactly. -/
theorem C4_overexposure_threshold (raw : ℕ → ℕ) :
    (DARK_LEVEL_THRESHOLD_ADC ≤ dark_com raw → get_scan_data raw = Except.error ()) ∧
    (dark_com raw < DARK_LEVEL_THRESHOLD_ADC → ∃ f, get_scan_data raw = Except.ok f) := by
  constructor
  · intro h
    have hne := dark_com_ne_threshold raw
    have hlt : DARK_LEVEL_THRESHOLD_ADC < dark_com raw :=
      lt_of_le_of_ne h (fun he => hne he.symm)
    unfold get_scan_data
    rw [if_pos hlt]
  · intro h
    unfold get_scan_data
    rw [if_neg (not_lt.mpr (le_of_lt h))]
    exact ⟨_, rfl⟩

/-- Witness for C4: a saturated buffer raises the overexposure error, an
all-dark buffer does not. -/
theorem C4_overexposure_threshold_witness :
    (DARK_LEVEL_THRESHOLD_ADC ≤ dark_com (fun _ => 65535) ∧
      get_scan_data (fun _ => 65535) = Except.error ()) ∧
    (dark_com (fun _ => 0) < DARK_LEVEL_THRESHOLD_ADC ∧
      ∃ f, get_scan_data (fun _ => 0) = Except.ok f) := by
  have hd1 : dark_com (fun _ => 65535) = 65535 := by
    rw [dark_com, show dark_sum (fun _ => 65535) = 786420 from rfl]
    norm_num [NO_DARK_PIXELS]
  have hd0 : dark_com (fun _ => 0) = 0 := by
    rw [dark_com, show dark_sum (fun _ => 0) = 0 from rfl]
    norm_num
  have hthr1 : DARK_LEVEL_THRESHOLD_ADC ≤ dark_com (fun _ => 65535) := by
    rw [hd1]
    norm_num [DARK_LEVEL_THRESHOLD_ADC, DARK_LEVEL_THRESHOLD, MAX_ADC_VALUE]
  have hthr0 : dark_com (fun _ => 0) < DARK_LEVEL_THRESHOLD_ADC := by
    rw [hd0]
    norm_num [DARK_LEVEL_THRESHOLD_ADC, DARK_LEVEL_THRESHOLD, MAX_ADC_VALUE]
  exact ⟨⟨hthr1, (C4_overexposure_threshold _).1 hthr1⟩,
    ⟨hthr0, (C4_overexposure_threshold _).2 hthr0⟩⟩

/-- Claim C5 (amended): when the scan is not overexposed, every processed pixel
equals (raw[scan_offset+i] - dark_avg) / (ADC_MAX - dark_avg); the value never
exceeds 1 when raw values are within ADC range, and it is nonnegative exactly
when the raw scan pixel is at least the dark average (pixels darker than the
dark average yield negative outputs, so the original all-values-in-[0,1] claim
fails). -/
theorem C5_normalization_formula (raw : ℕ → ℕ) (f : ℕ → ℚ)
    (hok : get_scan_data raw = Except.ok f) (hadc : ∀ j, raw j ≤ MAX_ADC_VALUE) (i : ℕ) :
    f i = ((raw (SCAN_PIXELS_OFFSET + i) : ℚ) - dark_com raw) /
      ((MAX_ADC_VALUE : ℚ) - dark_com raw) ∧
    f i ≤ 1 ∧
    (dark_com raw ≤ (raw (SCAN_PIXELS_OFFSET + i) : ℚ) → 0 ≤ f i) := by
  unfold get_scan_data at hok
  by_cases hover : DARK_LEVEL_THRESHOLD_ADC < dark_com raw
  · rw [if_pos hover] at hok
    exact absurd hok (by simp)
  · rw [if_neg hover] at hok
    have hf := (Except.ok.injEq _ _).mp hok
    have hdark : dark_com raw ≤ DARK_LEVEL_THRESHOLD_ADC := not_lt.mp hover
    have hden : (0 : ℚ) < (MAX_ADC_VALUE : ℚ) - dark_com raw := by
      have : DARK_LEVEL_THRESHOLD_ADC < (MAX_ADC_VALUE : ℚ) := by
        norm_num [DARK_LEVEL_THRESHOLD_ADC, DARK_LEVEL_THRESHOLD, MAX_ADC_VALUE]
      linarith
    have hval : f i = ((raw (SCAN_PIXELS_OFFSET + i) : ℚ) - dark_com raw) *
        (1 / ((MAX_ADC_VALUE : ℚ) - dark_com raw)) := by
      rw [← hf]
    refine ⟨by rw [hval]; ring, ?_, fun hge => ?_⟩
    · rw [hval, mul_one_div, div_le_one hden]
      have : (raw (SCAN_PIXELS_OFFSET + i) : ℚ) ≤ (MAX_ADC_VALUE : ℚ) := by
        exact_mod_cast hadc (SCAN_PIXELS_OFFSET + i)
      linarith
    · rw [hval, mul_one_div]
      apply div_nonneg (by linarith) (le_of_lt hden)

/-- Helper: the value of one processed pixel, when the scan succeeds. -/
def scanPixel (raw : ℕ → ℕ) (i : ℕ) : Option ℚ :=
  match get_scan_data raw with
  | Except.ok f => some (f i)
  | Except.error _ => none

/-- Counterexample to C5 as stated: a buffer with dark pixels at 100 and a
scan pixel at 0 is not overexposed, yet its first processed value is negative,
outside [0,1]. -/
theorem C5_negative_output_counterexample :
    scanPixel (fun a => if a < SCAN_PIXELS_OFFSET then 100 else 0) 0 = some (-20 / 13087) ∧
    (-20 / 13087 : ℚ) < 0 := by
  have hd : dark_com (fun a => if a < SCAN_PIXELS_OFFSET then 100 else 0) = 100 := by
    rw [dark_com,
      show dark_sum (fun a => if a < SCAN_PIXELS_OFFSET then 100 else 0) = 1200 from rfl]
    norm_num [NO_DARK_PIXELS]
  have hscan : get_scan_data (fun a => if a < SCAN_PIXELS_OFFSET then 100 else 0) =
      Except.ok (fun i =>
        ((Nat.cast (if SCAN_PIXELS_OFFSET + i < SCAN_PIXELS_OFFSET then 100 else 0) : ℚ) - 100) *
          (1 / ((MAX_ADC_VALUE : ℚ) - 100))) := by
    rw [get_scan_data, hd,
      if_neg (by norm_num [DARK_LEVEL_THRESHOLD_ADC, DARK_LEVEL_THRESHOLD, MAX_ADC_VALUE])]
  constructor
  · rw [scanPixel, hscan]
    norm_num [MAX_ADC_VALUE, SCAN_PIXELS_OFFSET]
  · norm_num

/-- Witness for C5 at a concrete in-range buffer. -/
theorem C5_normalization_formula_witness :
    ∃ f, get_scan_data (fun _ => 0) = Except.ok f ∧
      (f 0 = (((fun _ : ℕ => (0 : ℕ)) (SCAN_PIXELS_OFFSET + 0) : ℚ) - dark_com (fun _ => 0)) /
          ((MAX_ADC_VALUE : ℚ) - dark_com (fun _ => 0)) ∧
        f 0 ≤ 1) := by
  have hth : ¬ DARK_LEVEL_THRESHOLD_ADC < dark_com (fun _ => 0) := by
    rw [dark_com, show dark_sum (fun _ => 0) = 0 from rfl]
    norm_num [NO_DARK_PIXELS, DARK_LEVEL_THRESHOLD_ADC, DARK_LEVEL_THRESHOLD, MAX_ADC_VALUE]
  have hscan : get_scan_data (fun _ => 0) = Except.ok (fun i =>
      (((fun _ : ℕ => (0 : ℕ)) (SCAN_PIXELS_OFFSET + i) : ℚ) - dark_com (fun _ => 0)) *
        (1 / ((MAX_ADC_VALUE : ℚ) - dark_com (fun _ => 0)))) := by
    rw [get_scan_data, if_neg hth]
  refine ⟨_, hscan, ?_, ?_⟩
  · exact (C5_normalization_formula _ _ hscan (fun j => Nat.zero_le _) 0).1
  · exact (C5_normalization_formula _ _ hscan (fun j => Nat.zero_le _) 0).2.1

/-
  Range-corrected scan (get_scan_data_corrected_range, lines 426-445).
  The generator expression next(i for i, val in enumerate(wl) if val > bound)
  yields the first index whose wavelength exceeds the bound and raises
  StopIteration when there is none; min() and max() of an empty slice raise
  ValueError; every exception is modelled as Except.error.
-/

def firstIdxAbove (w : ℕ → ℚ) (x : ℚ) : Option ℕ :=
  (List.range TLCCS_NUM_PIXELS).find? fun i => decide (x < w i)

/-- The slice amplitude_cor[idx_min:idx_max] of a per-pixel factor array. -/
def windowSlice (factors : ℕ → ℚ) (idx_min idx_max : ℕ) : List ℚ :=
  (List.range (idx_max - idx_min)).map fun k => factors (idx_min + k)

/-- get_scan_data_corrected_range: locates the pixel bounds from the factory
wavelength array w, computes the max/min ratio of the user factors over the
slice, then zeroes pixels outside the inclusive index bounds and scales the
pixels inside by factors[i] / min(slice).  The source reports the ratio as
10*log10(ratio) dB; the model returns the linear ratio and the dB figure is
noise_amplification_dB below. -/
def get_scan_data_corrected_range (raw : ℕ → ℕ) (w factors : ℕ → ℚ)
    (min_wl max_wl : ℚ) : Except Unit ((ℕ → ℚ) × ℚ) :=
  match firstIdxAbove w min_wl, firstIdxAbove w max_wl with
  | some idx_min, some idx_max =>
    let amplitude_cor := windowSlice factors idx_min idx_max
    match amplitude_cor.max?, amplitude_cor.min? with
    | some mx, some mn =>
      let noise_amplification_mult := mx / mn
      match get_scan_data raw with
      | Except.ok scan =>
        Except.ok
          (fun i => if i < idx_min ∨ idx_max < i then 0 else scan i * (factors i / mn),
            noise_amplification_mult)
      | Except.error e => Except.error e
    | _, _ => Except.error ()
  | _, _ => Except.error ()

/-- The reported noise amplification figure, in dB, of the returned linear
ratio: 10*log10(ratio). -/
noncomputable def noise_amplification_dB (mult : ℚ) : ℝ :=
  10 * Real.logb 10 (mult : ℝ)

theorem find?_range_eq_some (p : ℕ → Bool) :
    ∀ (n s i : ℕ), i < n → p (s + i) = true → (∀ j, j < i → p (s + j) = false) →
      (List.range' s n).find? p = some (s + i) := by
  intro n
  induction n with
  | zero => intro s i hi _ _; omega
  | succ n ih =>
    intro s i hi hp hmin
    rw [List.range'_succ]
    match i with
    | 0 => exact List.find?_cons_of_pos _ (by simpa using hp)
    | k + 1 =>
      rw [List.find?_cons_of_neg _ (by simpa using hmin 0 (by omega))]
      rw [show s + (k + 1) = s + 1 + k by omega]
      exact ih (s + 1) k (by omega)
        (by rw [show s + 1 + k = s + (k + 1) by omega]; exact hp)
        (fun j hj => by rw [show s + 1 + j = s + (j + 1) by omega]; exact hmin (j + 1) (by omega))

theorem firstIdxAbove_eq_some (w : ℕ → ℚ) (x : ℚ) (i : ℕ) (hi : i < TLCCS_NUM_PIXELS)
    (hp : x < w i) (hmin : ∀ j, j < i → ¬ x < w j) :
    firstIdxAbove w x = some i := by
  rw [firstIdxAbove, List.range_eq_range']
  have := find?_range_eq_some (fun i => decide (x < w i)) TLCCS_NUM_PIXELS 0 i hi
    (by simpa using hp) (fun j hj => by simpa using hmin j hj)
  simpa using this

/-- Claim C6: with both wavelength bounds inside the factory span and a
nonempty factor slice, range correction returns the scan with every pixel
outside the inclusive index bounds set to 0 and every pixel inside multiplied
by factors[i]/min(slice), together with the max/min ratio of the slice, whose
reported dB figure is 10*log10(max/min). -/
theorem C6_range_correction (raw : ℕ → ℕ) (w factors : ℕ → ℚ) (min_wl max_wl : ℚ)
    (imin imax : ℕ) (mn mx : ℚ) (base : ℕ → ℚ)
    (h1 : firstIdxAbove w min_wl = some imin)
    (h2 : firstIdxAbove w max_wl = some imax)
    (hmn : (windowSlice factors imin imax).min? = some mn)
    (hmx : (windowSlice factors imin imax).max? = some mx)
    (hscan : get_scan_data raw = Except.ok base) :
    get_scan_data_corrected_range raw w factors min_wl max_wl =
      Except.ok
        (fun i => if i < imin ∨ imax < i then 0 else base i * (factors i / mn), mx / mn) ∧
    noise_amplification_dB (mx / mn) = 10 * Real.logb 10 ((mx : ℝ) / (mn : ℝ)) := by
  constructor
  · simp only [get_scan_data_corrected_range, h1, h2, hmn, hmx, hscan]
  · rw [noise_amplification_dB]
    push_cast
    rfl

/-
  Shared concrete scan for witnesses: the all-zero raw buffer passes the
  overexposure check.
-/

def zeroRaw : ℕ → ℕ := fun _ => 0

def scanZeroFun : ℕ → ℚ := fun i =>
  ((zeroRaw (SCAN_PIXELS_OFFSET + i) : ℚ) - dark_com zeroRaw) *
    (1 / ((MAX_ADC_VALUE : ℚ) - dark_com zeroRaw))

theorem scan_zero_ok : get_scan_data zeroRaw = Except.ok scanZeroFun := by
  have hth : ¬ DARK_LEVEL_THRESHOLD_ADC < dark_com zeroRaw := by
    rw [dark_com, show dark_sum zeroRaw = 0 from rfl]
    norm_num [NO_DARK_PIXELS, DARK_LEVEL_THRESHOLD_ADC, DARK_LEVEL_THRESHOLD, MAX_ADC_VALUE]
  rw [get_scan_data, if_neg hth]
  rfl

/-- Witness for C6 at a concrete configuration: wavelengths w i = i, bounds
0.5 and 2.5 giving pixel bounds 1 and 3, all user factors 1. -/
theorem C6_range_correction_witness :
    get_scan_data_corrected_range zeroRaw (fun i => (i : ℚ)) (fun _ => 1) (1 / 2) (5 / 2) =
      Except.ok
        (fun i => if i < 1 ∨ 3 < i then 0 else scanZeroFun i * ((1 : ℚ) / 1), (1 : ℚ) / 1) ∧
    noise_amplification_dB ((1 : ℚ) / 1) =
      10 * Real.logb 10 (((1 : ℚ) : ℝ) / ((1 : ℚ) : ℝ)) := by
  have h1 : firstIdxAbove (fun i => (i : ℚ)) (1 / 2) = some 1 :=
    firstIdxAbove_eq_some _ _ 1 (by norm_num [TLCCS_NUM_PIXELS]) (by norm_num)
      (fun j hj => by interval_cases j <;> norm_num)
  have h2 : firstIdxAbove (fun i => (i : ℚ)) (5 / 2) = some 3 :=
    firstIdxAbove_eq_some _ _ 3 (by norm_num [TLCCS_NUM_PIXELS]) (by norm_num)
      (fun j hj => by interval_cases j <;> norm_num)
  have hsl : windowSlice (fun _ => (1 : ℚ)) 1 3 = [1, 1] := rfl
  have hmn : (windowSlice (fun _ => (1 : ℚ)) 1 3).min? = some 1 := by
    rw [hsl]; simp [List.min?_cons', min_self]
  have hmx : (windowSlice (fun _ => (1 : ℚ)) 1 3).max? = some 1 := by
    rw [hsl]; simp [List.max?_cons', max_self]
  exact C6_range_correction zeroRaw _ _ _ _ 1 3 1 1 scanZeroFun h1 h2 hmn hmx scan_zero_ok

/-
  Noise-bounded window (find_centered_range, lines 448-492, and
  get_scan_data_corrected_noise, lines 494-518).  The while loop of the source
  either expands the window (growing right - left by at least one, which can
  happen at most n - 1 times inside an array of n pixels) or breaks; the
  fuel-indexed recursion below with initial fuel n therefore reaches the same
  fixpoint as the source loop.
-/

def find_centered_loop (arr : ℕ → ℚ) (n : ℕ) (threshold : ℚ) :
    ℕ → ℕ → ℕ → ℚ → ℚ → ℕ × ℕ × ℚ × ℚ
  | 0, left, right, min_val, max_val => (left, right, min_val, max_val)
  | fuel + 1, left, right, min_val, max_val =>
    if 0 < left ∧ right < n - 1 ∧
        max max_val (max (arr (left - 1)) (arr (right + 1))) /
          min min_val (min (arr (left - 1)) (arr (right + 1))) ≤ threshold then
      find_centered_loop arr n threshold fuel (left - 1) (right + 1)
        (min min_val (min (arr (left - 1)) (arr (right + 1))))
        (max max_val (max (arr (left - 1)) (arr (right + 1))))
    else if 0 < left ∧
        max max_val (arr (left - 1)) / min min_val (arr (left - 1)) ≤ threshold then
      find_centered_loop arr n threshold fuel (left - 1) right
        (min min_val (arr (left - 1))) (max max_val (arr (left - 1)))
    else if right < n - 1 ∧
        max max_val (arr (right + 1)) / min min_val (arr (right + 1)) ≤ threshold then
      find_centered_loop arr n threshold fuel left (right + 1)
        (min min_val (arr (right + 1))) (max max_val (arr (right + 1)))
    else (left, right, min_val, max_val)

def find_centered_range (arr : ℕ → ℚ) (n : ℕ) (center : ℕ) (threshold : ℚ) :
    ℕ × ℕ × ℚ × ℚ :=
  find_centered_loop arr n threshold n center center (arr center) (arr center)

/-- Invariant of the window search: the window contains the center, stays
inside the array, the tracked values are the minimum and maximum of the factor
array over the inclusive window, and their ratio stays within the threshold. -/
def WindowInv (arr : ℕ → ℚ) (n center : ℕ) (threshold : ℚ) (left right : ℕ)
    (min_val max_val : ℚ) : Prop :=
  left ≤ center ∧ center ≤ right ∧ right < n ∧
  (∀ i, left ≤ i → i ≤ right → min_val ≤ arr i ∧ arr i ≤ max_val) ∧
  (∃ i, left ≤ i ∧ i ≤ right ∧ arr i = min_val) ∧
  (∃ i, left ≤ i ∧ i ≤ right ∧ arr i = max_val) ∧
  max_val / min_val ≤ threshold

theorem find_centered_loop_inv (arr : ℕ → ℚ) (n center : ℕ) (threshold : ℚ) :
    ∀ (fuel left right : ℕ) (min_val max_val : ℚ),
      WindowInv arr n center threshold left right min_val max_val →
      WindowInv arr n center threshold
        (find_centered_loop arr n threshold fuel left right min_val max_val).1
        (find_centered_loop arr n threshold fuel left right min_val max_val).2.1
        (find_centered_loop arr n threshold fuel left right min_val max_val).2.2.1
        (find_centered_loop arr n threshold fuel left right min_val max_val).2.2.2 := by
  intro fuel
  induction fuel with
  | zero => intro l r mn mx h; exact h
  | succ fuel ih =>
    intro l r mn mx h
    obtain ⟨hlc, hcr, hrn, hbound, ⟨imn, himn⟩, ⟨imx, himx⟩, hratio⟩ := h
    rw [find_centered_loop]
    split_ifs with hsym hleft hright
    · obtain ⟨hl0, hr1, hth⟩ := hsym
      apply ih
      refine ⟨by omega, by omega, by omega, ?_, ?_, ?_, hth⟩
      · intro i hi1 hi2
        by_cases hil : i = l - 1
        · subst hil
          exact ⟨inf_le_of_right_le inf_le_left, le_sup_of_le_right le_sup_left⟩
        · by_cases hir : i = r + 1
          · subst hir
            exact ⟨inf_le_of_right_le inf_le_right, le_sup_of_le_right le_sup_right⟩
          · have := hbound i (by omega) (by omega)
            exact ⟨inf_le_of_left_le this.1, le_sup_of_le_left this.2⟩
      · rcases le_total mn (min (arr (l - 1)) (arr (r + 1))) with hm | hm
        · exact ⟨imn, by omega, by omega, by rw [himn.2.2, min_eq_left hm]⟩
        · rcases le_total (arr (l - 1)) (arr (r + 1)) with ha | ha
          · exact ⟨l - 1, by omega, by omega,
              by rw [min_eq_right hm, min_eq_left ha]⟩
          · exact ⟨r + 1, by omega, by omega,
              by rw [min_eq_right hm, min_eq_right ha]⟩
      · rcases le_total (max (arr (l - 1)) (arr (r + 1))) mx with hm | hm
        · exact ⟨imx, by omega, by omega, by rw [himx.2.2, max_eq_left hm]⟩
        · rcases le_total (arr (l - 1)) (arr (r + 1)) with ha | ha
          · exact ⟨r + 1, by omega, by omega,
              by rw [max_eq_right hm, max_eq_right ha]⟩
          · exact ⟨l - 1, by omega, by omega,
              by rw [max_eq_right hm, max_eq_left ha]⟩
    · obtain ⟨hl0, hth⟩ := hleft
      apply ih
      refine ⟨by omega, by omega, by omega, ?_, ?_, ?_, hth⟩
      · intro i hi1 hi2
        by_cases hil : i = l - 1
        · subst hil
          exact ⟨inf_le_right, le_sup_right⟩
        · have := hbound i (by omega) (by omega)
          exact ⟨inf_le_of_left_le this.1, le_sup_of_le_left this.2⟩
      · rcases le_total mn (arr (l - 1)) with hm | hm
        · exact ⟨imn, by omega, by omega, by rw [himn.2.2, min_eq_left hm]⟩
        · exact ⟨l - 1, by omega, by omega, by rw [min_eq_right hm]⟩
      · rcases le_total (arr (l - 1)) mx with hm | hm
        · exact ⟨imx, by omega, by omega, by rw [himx.2.2, max_eq_left hm]⟩
        · exact ⟨l - 1, by omega, by omega, by rw [max_eq_right hm]⟩
    · obtain ⟨hr1, hth⟩ := hright
      apply ih
      refine ⟨by omega, by omega, by omega, ?_, ?_, ?_, hth⟩
      · intro i hi1 hi2
        by_cases hir : i = r + 1
        · subst hir
          exact ⟨inf_le_right, le_sup_right⟩
        · have := hbound i (by omega) (by omega)
          exact ⟨inf_le_of_left_le this.1, le_sup_of_le_left this.2⟩
      · rcases le_total mn (arr (r + 1)) with hm | hm
        · exact ⟨imn, by omega, by omega, by rw [himn.2.2, min_eq_left hm]⟩
        · exact ⟨r + 1, by omega, by omega, by rw [min_eq_right hm]⟩
      · rcases le_total (arr (r + 1)) mx with hm | hm
        · exact ⟨imx, by omega, by omega, by rw [himx.2.2, max_eq_left hm]⟩
        · exact ⟨r + 1, by omega, by omega, by rw [max_eq_right hm]⟩
    · exact ⟨hlc, hcr, hrn, hbound, ⟨imn, himn⟩, ⟨imx, himx⟩, hratio⟩

/-- When no expansion guard holds, the loop is already at its fixpoint. -/
theorem find_centered_loop_fixed (arr : ℕ → ℚ) (n : ℕ) (threshold : ℚ)
    (l r : ℕ) (mn mx : ℚ)
    (h1 : ¬(0 < l ∧ r < n - 1 ∧
      max mx (max (arr (l - 1)) (arr (r + 1))) /
        min mn (min (arr (l - 1)) (arr (r + 1))) ≤ threshold))
    (h2 : ¬(0 < l ∧ max mx (arr (l - 1)) / min mn (arr (l - 1)) ≤ threshold))
    (h3 : ¬(r < n - 1 ∧ max mx (arr (r + 1)) / min mn (arr (r + 1)) ≤ threshold)) :
    ∀ fuel, find_centered_loop arr n threshold fuel l r mn mx = (l, r, mn, mx) := by
  intro fuel
  cases fuel with
  | zero => rfl
  | succ fuel =>
    rw [find_centered_loop, if_neg h1, if_neg h2, if_neg h3]

def firstIdxAtLeast (w : ℕ → ℚ) (x : ℚ) : Option ℕ :=
  (List.range TLCCS_NUM_PIXELS).find? fun i => decide (x ≤ w i)

theorem firstIdxAtLeast_eq_some (w : ℕ → ℚ) (x : ℚ) (i : ℕ) (hi : i < TLCCS_NUM_PIXELS)
    (hp : x ≤ w i) (hmin : ∀ j, j < i → ¬ x ≤ w j) :
    firstIdxAtLeast w x = some i := by
  rw [firstIdxAtLeast, List.range_eq_range']
  have := find?_range_eq_some (fun i => decide (x ≤ w i)) TLCCS_NUM_PIXELS 0 i hi
    (by simpa using hp) (fun j hj => by simpa using hmin j hj)
  simpa using this

/-- get_scan_data_corrected_noise: the source converts the allowed noise
amplification in dB to the linear threshold 10 powered to dB/10 (at least 1
exactly when dB is nonnegative); the model takes that linear multiplier as the
parameter.  The center pixel is the first index whose factory wavelength is at
least center_wl (StopIteration modelled as an error); after the window search,
every pixel outside the window is set to 0 and every pixel is then multiplied
by factors[i]/min_correction. -/
def get_scan_data_corrected_noise (raw : ℕ → ℕ) (w factors : ℕ → ℚ) (center_wl : ℚ)
    (noise_multiplier : ℚ) : Except Unit ((ℕ → ℚ) × ℚ × ℚ) :=
  match firstIdxAtLeast w center_wl with
  | none => Except.error ()
  | some idx_center =>
    let res := find_centered_range factors TLCCS_NUM_PIXELS idx_center noise_multiplier
    match get_scan_data raw with
    | Except.error e => Except.error e
    | Except.ok scan =>
      Except.ok
        (fun i => (if i < res.1 ∨ res.2.1 < i then 0 else scan i) * (factors i / res.2.2.1),
          w res.1, w res.2.1)

/-- Claim C7: for positive correction factors, a center pixel inside the array
and a linear threshold of at least 1, the window search returns bounds around
the center inside the array whose tracked values are the minimum and maximum
factor over the inclusive window, with max/min within the threshold; the
returned scan is 0 outside the window and scaled by factors[i]/min inside. -/
theorem C7_noise_bounded_window (raw : ℕ → ℕ) (w factors : ℕ → ℚ) (center_wl : ℚ)
    (noise_multiplier : ℚ) (center : ℕ) (base : ℕ → ℚ)
    (idx_left idx_right : ℕ) (min_correction max_correction : ℚ)
    (hc : center < TLCCS_NUM_PIXELS)
    (hpos : ∀ i, 0 < factors i)
    (hthr : 1 ≤ noise_multiplier)
    (hfind : firstIdxAtLeast w center_wl = some center)
    (hscan : get_scan_data raw = Except.ok base)
    (hres : find_centered_range factors TLCCS_NUM_PIXELS center noise_multiplier =
      (idx_left, idx_right, min_correction, max_correction)) :
    (idx_left ≤ center ∧ center ≤ idx_right ∧ idx_right < TLCCS_NUM_PIXELS) ∧
    (∀ i, idx_left ≤ i → i ≤ idx_right →
      min_correction ≤ factors i ∧ factors i ≤ max_correction) ∧
    (∃ i, idx_left ≤ i ∧ i ≤ idx_right ∧ factors i = min_correction) ∧
    (∃ i, idx_left ≤ i ∧ i ≤ idx_right ∧ factors i = max_correction) ∧
    max_correction / min_correction ≤ noise_multiplier ∧
    get_scan_data_corrected_noise raw w factors center_wl noise_multiplier =
      Except.ok
        (fun i => (if i < idx_left ∨ idx_right < i then 0 else base i) *
            (factors i / min_correction),
          w idx_left, w idx_right) := by
  have hinit : WindowInv factors TLCCS_NUM_PIXELS center noise_multiplier
      center center (factors center) (factors center) := by
    refine ⟨le_refl _, le_refl _, hc, ?_, ⟨center, le_refl _, le_refl _, rfl⟩,
      ⟨center, le_refl _, le_refl _, rfl⟩, ?_⟩
    · intro i hi1 hi2
      have : i = center := by omega
      subst this
      exact ⟨le_refl _, le_refl _⟩
    · rw [div_self (ne_of_gt (hpos center))]
      exact hthr
  have hinv := find_centered_loop_inv factors TLCCS_NUM_PIXELS center noise_multiplier
    TLCCS_NUM_PIXELS center center (factors center) (factors center) hinit
  rw [show find_centered_loop factors TLCCS_NUM_PIXELS noise_multiplier TLCCS_NUM_PIXELS
      center center (factors center) (factors center) =
      find_centered_range factors TLCCS_NUM_PIXELS center noise_multiplier from rfl,
    hres] at hinv
  obtain ⟨hlc, hcr, hrn, hbound, hexmn, hexmx, hratio⟩ := hinv
  refine ⟨⟨hlc, hcr, hrn⟩, hbound, hexmn, hexmx, hratio, ?_⟩
  simp only [get_scan_data_corrected_noise, hfind, hscan, hres]

def arrStep : ℕ → ℚ := fun i => if i = 0 then 1 else 2

/-- Witness for C7: factors 1 at pixel 0 and 2 elsewhere, center pixel 0 and
threshold 1: no expansion is possible, the window stays at pixel 0. -/
theorem C7_noise_bounded_window_witness :
    ((0 ≤ 0 ∧ 0 ≤ 0 ∧ 0 < TLCCS_NUM_PIXELS) ∧
      (∀ i, 0 ≤ i → i ≤ 0 → (1 : ℚ) ≤ arrStep i ∧ arrStep i ≤ 1) ∧
      (∃ i, 0 ≤ i ∧ i ≤ 0 ∧ arrStep i = 1) ∧
      (∃ i, 0 ≤ i ∧ i ≤ 0 ∧ arrStep i = 1) ∧
      (1 : ℚ) / 1 ≤ 1 ∧
      get_scan_data_corrected_noise zeroRaw (fun i => (i : ℚ)) arrStep 0 1 =
        Except.ok
          (fun i => (if i < 0 ∨ 0 < i then 0 else scanZeroFun i) * (arrStep i / 1),
            ((0 : ℕ) : ℚ), ((0 : ℕ) : ℚ))) := by
  have harr0 : arrStep 0 = 1 := rfl
  have harr1 : arrStep 1 = 2 := rfl
  have hpos : ∀ i, 0 < arrStep i := by
    intro i
    by_cases h : i = 0 <;> norm_num [arrStep, h]
  have hfind : firstIdxAtLeast (fun i => (i : ℚ)) 0 = some 0 :=
    firstIdxAtLeast_eq_some _ _ 0 (by norm_num [TLCCS_NUM_PIXELS]) (by norm_num)
      (fun j hj => by omega)
  have hres : find_centered_range arrStep TLCCS_NUM_PIXELS 0 1 = (0, 0, 1, 1) := by
    rw [find_centered_range, harr0]
    apply find_centered_loop_fixed
    · intro h
      exact absurd h.1 (by omega)
    · intro h
      exact absurd h.1 (by omega)
    · intro h
      have h2 := h.2
      rw [show (0 : ℕ) + 1 = 1 from rfl, harr1] at h2
      norm_num at h2
  exact C7_noise_bounded_window zeroRaw (fun i => (i : ℚ)) arrStep 0 1 0 scanZeroFun
    0 0 1 1 (by norm_num [TLCCS_NUM_PIXELS]) hpos (le_refl 1) hfind scan_zero_ok hres

/-
  Integration time codec (decode_integration_time, lines 733-737, and
  encode_integration_time, lines 740-776).
-/

def integ_max : ℚ := 4095 / (1 + (1 / 100) * SH_PERCENT)

/-- The prescaler while loop of encode_integration_time: while
(integ > integ_max) & (presc < 20), halve integ and increment presc.  Each
iteration increments presc, so starting from presc = 0 at most 20 iterations
can run and fuel 20 reproduces the loop exactly. -/
def presc_loop : ℕ → ℕ → ℕ → ℕ × ℕ
  | 0, integ, presc => (integ, presc)
  | fuel + 1, integ, presc =>
    if integ_max < (integ : ℚ) ∧ presc < 20 then presc_loop fuel (integ / 2) (presc + 1)
    else (integ, presc)

/-- The register triple (integ, fill, presc) computed by
encode_integration_time before byte packing.  int() truncation of the
nonnegative float expressions is modelled as the integer floor. -/
def encode_core (time_sec : ℚ) : ℕ × ℕ × ℕ :=
  let integ0 : ℕ := (Int.floor (time_sec * 1000000)).toNat
  let lp := presc_loop 20 integ0 0
  let integ := lp.1
  let presc := lp.2
  let diff : ℕ :=
    if integ < TLCCS_NUM_RAW_PIXELS >>> presc then TLCCS_NUM_RAW_PIXELS >>> presc - integ
    else 0
  let fill : ℕ := (Int.floor (((integ : ℚ) * SH_PERCENT) / 100 + (diff : ℚ))).toNat
  let integ2 : ℕ := integ - 8 + fill
  if TLCCS_NUM_RAW_PIXELS < integ2 then (integ2 / 2 - 4, fill / 2, presc + 1)
  else (integ2, fill, presc)

/-- encode_integration_time: validates the closed range before any device
traffic, computes the register triple, and packs three big-endian 16-bit
fields; (x & 0xFF00) >> 8 is written x / 256 % 256 and x & 0x00FF as x % 256,
and the tag bytes 0x00, 0x10, 0x20 are ORed into the high byte of each field
as in the source. -/
def encode_integration_time (time_sec : ℚ) : Except Unit (List ℕ) :=
  if ¬(TLCCS_MIN_INT_TIME ≤ time_sec ∧ time_sec ≤ TLCCS_MAX_INT_TIME) then Except.error ()
  else
    let c := encode_core time_sec
    Except.ok [(c.2.2 / 256 % 256) ||| 0x00, c.2.2 % 256,
               (c.2.1 / 256 % 256) ||| 0x10, c.2.1 % 256,
               (c.1 / 256 % 256) ||| 0x20, c.1 % 256]

/-- decode_integration_time: unpacks three big-endian signed 16-bit fields and
masks each with 0x0FFF.  Because 0x10000 is a multiple of 0x1000, the
sign-then-mask of the source equals the remainder of the unsigned big-endian
value modulo 4096, which is how the mask is written here. -/
def decode_integration_time (data : List ℕ) : ℚ :=
  let presc := (data.getD 0 0 * 256 + data.getD 1 0) % 4096
  let fill := (data.getD 2 0 * 256 + data.getD 3 0) % 4096
  let integ := (data.getD 4 0 * 256 + data.getD 5 0) % 4096
  ((integ : ℚ) - (fill : ℚ) + 8) * 2 ^ presc / 1000000

theorem presc_loop_spec : ∀ (fuel i p : ℕ),
    p ≤ (presc_loop fuel i p).2 ∧
    (presc_loop fuel i p).1 = i / 2 ^ ((presc_loop fuel i p).2 - p) ∧
    (presc_loop fuel i p).2 ≤ p + fuel := by
  intro fuel
  induction fuel with
  | zero => intro i p; exact ⟨le_refl p, by simp [presc_loop], by simp [presc_loop]⟩
  | succ fuel ih =>
    intro i p
    rw [presc_loop]
    split_ifs with hg
    · obtain ⟨ihp, ihdiv, ihle⟩ := ih (i / 2) (p + 1)
      refine ⟨by omega, ?_, by omega⟩
      rw [ihdiv, Nat.div_div_eq_div_mul, ← pow_succ']
      have he : (presc_loop fuel (i / 2) (p + 1)).2 - (p + 1) + 1 =
          (presc_loop fuel (i / 2) (p + 1)).2 - p := by omega
      rw [he]
    · exact ⟨le_refl p, by simp, by omega⟩

theorem presc_loop_exit : ∀ (fuel i p : ℕ),
    ((presc_loop fuel i p).1 : ℚ) ≤ integ_max ∨ (presc_loop fuel i p).2 = p + fuel ∨
      20 ≤ (presc_loop fuel i p).2 := by
  intro fuel
  induction fuel with
  | zero => intro i p; right; left; simp [presc_loop]
  | succ fuel ih =>
    intro i p
    rw [presc_loop]
    split_ifs with hg
    · rcases ih (i / 2) (p + 1) with h | h | h
      · exact Or.inl h
      · exact Or.inr (Or.inl (by omega))
      · exact Or.inr (Or.inr h)
    · rw [not_and_or, not_lt, not_lt] at hg
      rcases hg with h | h
      · exact Or.inl h
      · exact Or.inr (Or.inr (by simpa using h))

theorem presc_loop_le : ∀ (fuel i p m : ℕ), (i : ℚ) ≤ integ_max * 2 ^ m →
    (presc_loop fuel i p).2 ≤ p + m := by
  intro fuel
  induction fuel with
  | zero => intro i p m _; simp [presc_loop]
  | succ fuel ih =>
    intro i p m hm
    rw [presc_loop]
    split_ifs with hg
    · match m with
      | 0 =>
        exfalso
        rw [pow_zero, mul_one] at hm
        exact absurd hg.1 (not_lt.mpr hm)
      | m + 1 =>
        have hstep : ((i / 2 : ℕ) : ℚ) ≤ integ_max * 2 ^ m := by
          have hc : ((i / 2 : ℕ) : ℚ) ≤ (i : ℚ) / 2 := Nat.cast_div_le
          have h2 : (2 : ℚ) ^ (m + 1) = 2 * 2 ^ m := by ring
          rw [h2] at hm
          linarith
        have := ih (i / 2) (p + 1) m hstep
        omega
    · simp

theorem presc_loop_ge : ∀ (fuel i p : ℕ),
    presc_loop fuel i p = (i, p) ∨ 1758 ≤ (presc_loop fuel i p).1 := by
  intro fuel
  induction fuel with
  | zero => intro i p; left; rfl
  | succ fuel ih =>
    intro i p
    rw [presc_loop]
    split_ifs with hg
    · right
      have hi : 3516 ≤ i := by
        by_contra hcon
        push_neg at hcon
        have : (i : ℚ) ≤ 3515 := by exact_mod_cast Nat.lt_succ_iff.mp hcon
        have : (i : ℚ) ≤ integ_max := by
          rw [integ_max, SH_PERCENT]
          linarith [this, show (3515 : ℚ) ≤ 4095 / (1 + 1 / 100 * (33 / 2)) by norm_num]
        exact absurd hg.1 (not_lt.mpr this)
      rcases ih (i / 2) (p + 1) with h | h
      · rw [h]
        show 1758 ≤ i / 2
        omega
      · exact h
    · left; rfl

theorem fill_floor_eq (i d : ℕ) :
    (Int.floor (((i : ℚ) * SH_PERCENT) / 100 + (d : ℚ))).toNat = i * 33 / 200 + d := by
  have h1 : ((i : ℚ) * SH_PERCENT) / 100 = ((i * 33 : ℕ) : ℚ) / ((200 : ℕ) : ℚ) := by
    rw [SH_PERCENT]
    push_cast
    ring
  rw [h1, Int.floor_add_nat, Rat.floor_natCast_div_natCast]
  omega

theorem decode_encoded_bytes (p f g : ℕ) (hp : p < 256) (hf : f < 4096) (hg : g < 4096) :
    decode_integration_time [(p / 256 % 256) ||| 0x00, p % 256,
      (f / 256 % 256) ||| 0x10, f % 256, (g / 256 % 256) ||| 0x20, g % 256] =
    ((g : ℚ) - (f : ℚ) + 8) * 2 ^ p / 1000000 := by
  have hlor16 : ∀ a, a < 16 → a ||| 16 = a + 16 := by decide
  have hlor32 : ∀ a, a < 16 → a ||| 32 = a + 32 := by decide
  rw [decode_integration_time]
  simp only [List.getD_cons_zero, List.getD_cons_succ]
  have e1 : ((p / 256 % 256 ||| 0) * 256 + p % 256) % 4096 = p := by
    rw [Nat.or_zero]
    omega
  have e2 : ((f / 256 % 256 ||| 16) * 256 + f % 256) % 4096 = f := by
    rw [hlor16 (f / 256 % 256) (by omega)]
    omega
  have e3 : ((g / 256 % 256 ||| 32) * 256 + g % 256) % 4096 = g := by
    rw [hlor32 (g / 256 % 256) (by omega)]
    omega
  rw [e1, e2, e3]

theorem encode_core_spec (t : ℚ) (h1 : TLCCS_MIN_INT_TIME ≤ t) (h2 : t ≤ TLCCS_MAX_INT_TIME) :
    (encode_core t).2.2 ≤ 16 ∧ (encode_core t).2.2 < 256 ∧
    (encode_core t).2.1 < 4096 ∧ (encode_core t).1 < 4096 ∧
    |(((encode_core t).1 : ℚ) - ((encode_core t).2.1 : ℚ) + 8) * 2 ^ (encode_core t).2.2 -
      t * 1000000| < 2 ^ (encode_core t).2.2 := by
  rw [TLCCS_MIN_INT_TIME] at h1
  rw [TLCCS_MAX_INT_TIME] at h2
  have hta : (10 : ℚ) ≤ t * 1000000 := by linarith
  have htb : t * 1000000 ≤ 60000000 := by linarith
  have hfge : (0 : ℤ) ≤ Int.floor (t * 1000000) := by
    rw [Int.le_floor]
    push_cast
    linarith
  set i0 : ℕ := (Int.floor (t * 1000000)).toNat with hi0
  have hq : ((i0 : ℚ)) = ((Int.floor (t * 1000000) : ℤ) : ℚ) := by
    have h' : ((Int.floor (t * 1000000)).toNat : ℤ) = Int.floor (t * 1000000) :=
      Int.toNat_of_nonneg hfge
    rw [hi0]
    exact_mod_cast h'
  have hi0low : (i0 : ℚ) ≤ t * 1000000 := by
    rw [hq]
    exact Int.floor_le _
  have hi0high : t * 1000000 < (i0 : ℚ) + 1 := by
    rw [hq]
    exact Int.lt_floor_add_one _
  have hi0ge : 10 ≤ i0 := by
    by_contra hcon
    push_neg at hcon
    have h9 : (i0 : ℚ) ≤ 9 := by exact_mod_cast Nat.lt_succ_iff.mp hcon
    linarith
  have hi0le : i0 ≤ 60000000 := by
    by_contra hcon
    push_neg at hcon
    have hc : (60000001 : ℚ) ≤ (i0 : ℚ) := by exact_mod_cast hcon
    linarith
  obtain ⟨hp1, hdiv, hple⟩ := presc_loop_spec 20 i0 0
  set i1 := (presc_loop 20 i0 0).1 with hi1
  set p := (presc_loop 20 i0 0).2 with hp
  have hp15 : p ≤ 15 := by
    have hcast : ((i0 : ℚ)) ≤ integ_max * 2 ^ 15 := by
      have h6 : ((i0 : ℚ)) ≤ 60000000 := by exact_mod_cast hi0le
      have hnum : (60000000 : ℚ) ≤ integ_max * 2 ^ 15 := by
        rw [integ_max, SH_PERCENT]
        norm_num
      linarith
    simpa using presc_loop_le 20 i0 0 15 hcast
  have hdiv1 : i1 = i0 / 2 ^ p := by simpa using hdiv
  have hi1ge : 10 ≤ i1 := by
    rcases presc_loop_ge 20 i0 0 with h | h
    · have : i1 = i0 := by rw [hi1, h]
      omega
    · omega
  have hi1le : i1 ≤ 3515 := by
    rcases presc_loop_exit 20 i0 0 with h | h | h
    · by_contra hcon
      push_neg at hcon
      have hc : (3516 : ℚ) ≤ (i1 : ℚ) := by exact_mod_cast hcon
      rw [integ_max, SH_PERCENT] at h
      norm_num at h
      linarith
    · omega
    · omega
  set D := TLCCS_NUM_RAW_PIXELS >>> p with hD
  have hDle : D ≤ 3694 := by
    rw [hD, TLCCS_NUM_RAW_PIXELS, Nat.shiftRight_eq_div_pow]
    exact Nat.div_le_self _ _
  set dff : ℕ := if i1 < D then D - i1 else 0 with hdff
  have hdcase : dff = 0 ∨ (i1 < D ∧ dff = D - i1) := by
    rw [hdff]
    split_ifs with hc
    · exact Or.inr ⟨hc, rfl⟩
    · exact Or.inl rfl
  set fill : ℕ := (Int.floor (((i1 : ℚ) * SH_PERCENT) / 100 + (dff : ℚ))).toNat with hfilldef
  have hfill : fill = i1 * 33 / 200 + dff := by
    rw [hfilldef]
    exact fill_floor_eq i1 dff
  have hfille : fill ≤ 3694 := by
    rcases hdcase with h | ⟨hlt, hEq⟩ <;> omega
  set integ2 : ℕ := i1 - 8 + fill with hint2
  -- the register value before the final adjustment decodes back to i1 * 2^p
  have hmod : i0 % 2 ^ p < 2 ^ p := Nat.mod_lt _ (pow_pos (by norm_num) p)
  have hsplit : 2 ^ p * i1 + i0 % 2 ^ p = i0 := by
    rw [hdiv1]
    exact Nat.div_add_mod i0 (2 ^ p)
  have hbase1 : (i1 : ℚ) * 2 ^ p ≤ t * 1000000 := by
    have hc : ((2 ^ p * i1 : ℕ) : ℚ) ≤ (i0 : ℚ) := by
      exact_mod_cast Nat.le.intro hsplit
    push_cast at hc
    linarith
  have hbase2 : t * 1000000 < (i1 : ℚ) * 2 ^ p + 2 ^ p := by
    have hnat : i0 + 1 ≤ 2 ^ p * i1 + 2 ^ p := by omega
    have hc : ((i0 : ℚ)) + 1 ≤ (2 : ℚ) ^ p * (i1 : ℚ) + 2 ^ p := by exact_mod_cast hnat
    calc t * 1000000 < (i0 : ℚ) + 1 := hi0high
    _ ≤ (2 : ℚ) ^ p * (i1 : ℚ) + 2 ^ p := hc
    _ = (i1 : ℚ) * 2 ^ p + 2 ^ p := by ring
  have hcore : encode_core t =
      if TLCCS_NUM_RAW_PIXELS < integ2 then (integ2 / 2 - 4, fill / 2, p + 1)
      else (integ2, fill, p) := rfl
  by_cases hadj : TLCCS_NUM_RAW_PIXELS < integ2
  · -- adjustment branch: halve integ and fill once more
    have hc : encode_core t = (integ2 / 2 - 4, fill / 2, p + 1) := by
      rw [hcore, if_pos hadj]
    rw [hc]
    dsimp only
    rw [TLCCS_NUM_RAW_PIXELS] at hadj
    refine ⟨by omega, by omega, by omega, by omega, ?_⟩
    have hkey1 : (i1 : ℤ) - 1 ≤ 2 * ((integ2 / 2 - 4 : ℕ) : ℤ) - 2 * ((fill / 2 : ℕ) : ℤ) + 16 := by
      omega
    have hkey2 : 2 * ((integ2 / 2 - 4 : ℕ) : ℤ) - 2 * ((fill / 2 : ℕ) : ℤ) + 16 ≤ (i1 : ℤ) + 1 := by
      omega
    have hq1 : (i1 : ℚ) - 1 ≤ 2 * ((integ2 / 2 - 4 : ℕ) : ℚ) - 2 * ((fill / 2 : ℕ) : ℚ) + 16 := by
      exact_mod_cast hkey1
    have hq2 : 2 * ((integ2 / 2 - 4 : ℕ) : ℚ) - 2 * ((fill / 2 : ℕ) : ℚ) + 16 ≤ (i1 : ℚ) + 1 := by
      exact_mod_cast hkey2
    have hpow : (2 : ℚ) ^ (p + 1) = 2 ^ p * 2 := by ring
    have hpos : (0 : ℚ) < 2 ^ p := by positivity
    have hVeq : (((integ2 / 2 - 4 : ℕ) : ℚ) - ((fill / 2 : ℕ) : ℚ) + 8) * 2 ^ (p + 1) =
        (2 * ((integ2 / 2 - 4 : ℕ) : ℚ) - 2 * ((fill / 2 : ℕ) : ℚ) + 16) * 2 ^ p := by
      rw [hpow]
      ring
    have hmul1 : ((i1 : ℚ) - 1) * 2 ^ p ≤
        (2 * ((integ2 / 2 - 4 : ℕ) : ℚ) - 2 * ((fill / 2 : ℕ) : ℚ) + 16) * 2 ^ p :=
      mul_le_mul_of_nonneg_right hq1 (le_of_lt hpos)
    have hmul2 : (2 * ((integ2 / 2 - 4 : ℕ) : ℚ) - 2 * ((fill / 2 : ℕ) : ℚ) + 16) * 2 ^ p ≤
        ((i1 : ℚ) + 1) * 2 ^ p :=
      mul_le_mul_of_nonneg_right hq2 (le_of_lt hpos)
    have he1 : ((i1 : ℚ) - 1) * 2 ^ p = (i1 : ℚ) * 2 ^ p - 2 ^ p := by ring
    have he2 : ((i1 : ℚ) + 1) * 2 ^ p = (i1 : ℚ) * 2 ^ p + 2 ^ p := by ring
    rw [hVeq, abs_lt, hpow]
    constructor
    · linarith
    · linarith
  · -- no adjustment
    have hc : encode_core t = (integ2, fill, p) := by
      rw [hcore, if_neg hadj]
    rw [hc]
    dsimp only
    rw [TLCCS_NUM_RAW_PIXELS] at hadj
    refine ⟨by omega, by omega, by omega, by omega, ?_⟩
    have hc2 : (integ2 : ℚ) = (i1 : ℚ) - 8 + (fill : ℚ) := by
      rw [hint2]
      have h8 : ((i1 - 8 + fill : ℕ) : ℚ) = ((i1 - 8 : ℕ) : ℚ) + fill := by push_cast; ring
      rw [h8, Nat.cast_sub (by omega)]
      norm_num
    have key : ((i1 : ℚ) - 8 + (fill : ℚ) - (fill : ℚ) + 8) * 2 ^ p = (i1 : ℚ) * 2 ^ p := by
      ring
    rw [hc2, key, abs_lt]
    have hpos : (0 : ℚ) < 2 ^ p := by positivity
    constructor
    · linarith
    · linarith

theorem presc_field_roundtrip (p : ℕ) (hp : p < 256) :
    ((p / 256 % 256 ||| 0) * 256 + p % 256) % 4096 = p := by
  rw [Nat.or_zero]
  omega

/-- Claim C2 (amended): for every t in the closed interval, encoding succeeds
and decoding the packed bytes recovers t to within one prescaled clock tick,
that is strictly less than 2 to the presc microseconds where presc (at most
16) is the encoded prescaler field; for every t outside the closed interval
the encoder raises before any device traffic. -/
theorem C2_roundtrip_prescaled_tick (t : ℚ) :
    (TLCCS_MIN_INT_TIME ≤ t → t ≤ TLCCS_MAX_INT_TIME →
      ∃ bs, encode_integration_time t = Except.ok bs ∧
        (bs.getD 0 0 * 256 + bs.getD 1 0) % 4096 ≤ 16 ∧
        |decode_integration_time bs - t| <
          2 ^ ((bs.getD 0 0 * 256 + bs.getD 1 0) % 4096) / 1000000) ∧
    (¬(TLCCS_MIN_INT_TIME ≤ t ∧ t ≤ TLCCS_MAX_INT_TIME) →
      encode_integration_time t = Except.error ()) := by
  constructor
  · intro h1 h2
    obtain ⟨hple, hp256, hf, hg, herr⟩ := encode_core_spec t h1 h2
    refine ⟨[((encode_core t).2.2 / 256 % 256) ||| 0x00, (encode_core t).2.2 % 256,
      ((encode_core t).2.1 / 256 % 256) ||| 0x10, (encode_core t).2.1 % 256,
      ((encode_core t).1 / 256 % 256) ||| 0x20, (encode_core t).1 % 256], ?_, ?_, ?_⟩
    · rw [encode_integration_time, if_neg (not_not_intro ⟨h1, h2⟩)]
    · simp only [List.getD_cons_zero, List.getD_cons_succ]
      rw [presc_field_roundtrip _ hp256]
      exact hple
    · simp only [List.getD_cons_zero, List.getD_cons_succ]
      rw [presc_field_roundtrip _ hp256,
        decode_encoded_bytes (encode_core t).2.2 (encode_core t).2.1 (encode_core t).1
          hp256 hf hg]
      have hsplit : (((encode_core t).1 : ℚ) - ((encode_core t).2.1 : ℚ) + 8) *
            2 ^ (encode_core t).2.2 / 1000000 - t =
          ((((encode_core t).1 : ℚ) - ((encode_core t).2.1 : ℚ) + 8) *
            2 ^ (encode_core t).2.2 - t * 1000000) / 1000000 := by
        ring
      rw [hsplit, abs_div, abs_of_pos (show (0 : ℚ) < 1000000 by norm_num),
        div_lt_div_iff_of_pos_right (show (0 : ℚ) < 1000000 by norm_num)]
      exact herr
  · intro h
    rw [encode_integration_time, if_pos h]

theorem presc_loop_go (fuel i p : ℕ) (hc : integ_max < (i : ℚ)) (hp : p < 20) :
    presc_loop (fuel + 1) i p = presc_loop fuel (i / 2) (p + 1) := by
  rw [presc_loop, if_pos ⟨hc, hp⟩]

theorem presc_loop_done (fuel i p : ℕ) (hc : ¬ integ_max < (i : ℚ)) :
    presc_loop (fuel + 1) i p = (i, p) := by
  rw [presc_loop, if_neg (fun h => hc h.1)]

theorem integ_max_lt (i : ℕ) (hi : 3516 ≤ i) : integ_max < (i : ℚ) := by
  have hc : (3516 : ℚ) ≤ (i : ℚ) := by exact_mod_cast hi
  have hb : integ_max < 3516 := by
    rw [integ_max, SH_PERCENT]
    norm_num
  linarith

theorem integ_max_ge (i : ℕ) (hi : i ≤ 3515) : ¬ integ_max < (i : ℚ) := by
  have hc : (i : ℚ) ≤ 3515 := by exact_mod_cast hi
  have hb : (3515 : ℚ) ≤ integ_max := by
    rw [integ_max, SH_PERCENT]
    norm_num
  linarith

/-- Counterexample to C2 as stated: at t = 0.010003 s the decoder returns
0.01 s, an error of 3 microseconds, which exceeds the claimed one-tick
tolerance of 1e-6 s (the prescaler is 2, so the actual granularity is
4 microseconds). -/
theorem C2_tick_counterexample :
    encode_integration_time (10003 / 1000000) = Except.ok [0, 2, 17, 156, 43, 88] ∧
    decode_integration_time [0, 2, 17, 156, 43, 88] = 1 / 100 ∧
    ¬ |decode_integration_time [0, 2, 17, 156, 43, 88] - 10003 / 1000000| ≤ 1 / 1000000 := by
  have hloop : presc_loop 20 10003 0 = (2500, 2) := by
    rw [show (20 : ℕ) = 19 + 1 from rfl,
      presc_loop_go 19 10003 0 (integ_max_lt 10003 (by norm_num)) (by norm_num)]
    norm_num
    rw [show (19 : ℕ) = 18 + 1 from rfl,
      presc_loop_go 18 5001 1 (integ_max_lt 5001 (by norm_num)) (by norm_num)]
    norm_num
    rw [show (18 : ℕ) = 17 + 1 from rfl,
      presc_loop_done 17 2500 2 (integ_max_ge 2500 (by norm_num))]
  have hfloor2 : (Int.floor ((10003 / 1000000 : ℚ) * 1000000)).toNat = 10003 := by
    rw [show ((10003 : ℚ) / 1000000 * 1000000) = ((10003 : ℤ) : ℚ) by norm_num,
      Int.floor_intCast]
    rfl
  have hcore : encode_core (10003 / 1000000) = (2904, 412, 2) := by
    unfold encode_core
    rw [hfloor2]
    simp only [hloop]
    rw [show (TLCCS_NUM_RAW_PIXELS >>> 2 : ℕ) = 923 from rfl,
      if_neg (show ¬ (2500 : ℕ) < 923 by norm_num), fill_floor_eq 2500 0]
    norm_num [TLCCS_NUM_RAW_PIXELS]
  have hdec : decode_integration_time [0, 2, 17, 156, 43, 88] = 1 / 100 := by
    rw [decode_integration_time]
    norm_num
  refine ⟨?_, hdec, ?_⟩
  · rw [encode_integration_time,
      if_neg (by norm_num [TLCCS_MIN_INT_TIME, TLCCS_MAX_INT_TIME])]
    simp only [hcore]
    rfl
  · rw [hdec]
    have habs : (1 / 100 : ℚ) - 10003 / 1000000 = -(3 / 1000000) := by norm_num
    rw [habs, abs_neg, abs_of_pos (by norm_num)]
    norm_num

/-- Witness for C2 at t = 0.010003 s (in range) and t = 100 s (out of range). -/
theorem C2_roundtrip_prescaled_tick_witness :
    (∃ bs, encode_integration_time (10003 / 1000000) = Except.ok bs ∧
      (bs.getD 0 0 * 256 + bs.getD 1 0) % 4096 ≤ 16 ∧
      |decode_integration_time bs - 10003 / 1000000| <
        2 ^ ((bs.getD 0 0 * 256 + bs.getD 1 0) % 4096) / 1000000) ∧
    encode_integration_time 100 = Except.error () :=
  ⟨(C2_roundtrip_prescaled_tick (10003 / 1000000)).1
      (by norm_num [TLCCS_MIN_INT_TIME]) (by norm_num [TLCCS_MAX_INT_TIME]),
   (C2_roundtrip_prescaled_tick 100).2
      (by norm_num [TLCCS_MIN_INT_TIME, TLCCS_MAX_INT_TIME])⟩

end Tlccs
